import Mathlib

/-!
Verification of the bit-vector, extent gap-finder and url-data-cache
components of the kent/ucsc C library as used by rtracklayer.

The byte buffer backing a bit vector (`Bits *` in C, an array of
`unsigned char`) is modelled as a function `Nat → Nat` from byte index to
byte value; in the C program every byte is `< 256`, and the theorems that
need this carry it as a hypothesis.  Signed C `int` counts are modelled as
`Int` where the code branches on `count <= 0`, and as `Nat` where the code
only ever sees non-negative values.
-/

namespace Ucsc

/-- The `oneBit` mask table from bits.c: `{0x80,0x40,0x20,0x10,8,4,2,1}`. -/
def oneBit : Nat → Nat
  | 0 => 0x80
  | 1 => 0x40
  | 2 => 0x20
  | 3 => 0x10
  | 4 => 0x8
  | 5 => 0x4
  | 6 => 0x2
  | 7 => 0x1
  | _ => 0

/-- The `leftMask` table from bits.c: `{0xFF,0x7F,0x3F,0x1F,0xF,7,3,1}`. -/
def leftMask : Nat → Nat
  | 0 => 0xFF
  | 1 => 0x7F
  | 2 => 0x3F
  | 3 => 0x1F
  | 4 => 0xF
  | 5 => 0x7
  | 6 => 0x3
  | 7 => 0x1
  | _ => 0

/-- The `rightMask` table from bits.c: `{0x80,0xC0,0xE0,0xF0,0xF8,0xFC,0xFE,0xFF}`. -/
def rightMask : Nat → Nat
  | 0 => 0x80
  | 1 => 0xC0
  | 2 => 0xE0
  | 3 => 0xF0
  | 4 => 0xF8
  | 5 => 0xFC
  | 6 => 0xFE
  | 7 => 0xFF
  | _ => 0

/-- The per-byte population count that `bitsInByteInit` stores in the
`bitsInByte[256]` table: the chain of eight `if (i&mask) ++count` tests. -/
def bitsInByte (x : Nat) : Nat :=
  (if x &&& 0x1 ≠ 0 then 1 else 0) +
  (if x &&& 0x2 ≠ 0 then 1 else 0) +
  (if x &&& 0x4 ≠ 0 then 1 else 0) +
  (if x &&& 0x8 ≠ 0 then 1 else 0) +
  (if x &&& 0x10 ≠ 0 then 1 else 0) +
  (if x &&& 0x20 ≠ 0 then 1 else 0) +
  (if x &&& 0x40 ≠ 0 then 1 else 0) +
  (if x &&& 0x80 ≠ 0 then 1 else 0)

/-- `bitAlloc`: a freshly allocated bit vector is a zeroed byte buffer
(`needLargeZeroedMem`). -/
def bitAlloc (_bitCount : Nat) : Nat → Nat := fun _ => 0

/-- Number of bytes backing a vector of `bitCount` bits: `(bitCount+7)>>3`. -/
def bitByteCount (bitCount : Nat) : Nat := (bitCount + 7) / 8

/-- `bitReadOne(b, bitIx)`: `(b[bitIx>>3] & oneBit[bitIx&7]) != 0`. -/
def bitReadOne (b : Nat → Nat) (bitIx : Nat) : Bool :=
  b (bitIx / 8) &&& oneBit (bitIx % 8) != 0

/-- `bitSetRange(b, startIx, bitCount)` from bits.c.  Returns the updated
byte buffer.  The `bitCount <= 0` early return is modelled by taking the
count as an `Int`. -/
def bitSetRange (b : Nat → Nat) (startIx : Nat) (bitCount : Int) : Nat → Nat :=
  if bitCount ≤ 0 then b else
  let endIx := startIx + bitCount.toNat - 1
  let startByte := startIx / 8
  let endByte := endIx / 8
  let startBits := startIx % 8
  let endBits := endIx % 8
  if startByte = endByte then
    fun i => if i = startByte then b i ||| (leftMask startBits &&& rightMask endBits) else b i
  else
    fun i =>
      if i = startByte then b i ||| leftMask startBits
      else if startByte < i ∧ i < endByte then 0xFF
      else if i = endByte then b i ||| rightMask endBits
      else b i

/-- `bitCountRange`, parametrised by the popcount table in use (the global
`bitsInByte` array in C); `bitCountRange` proper instantiates it with the
initialised table contents. -/
def bitCountRangeWith (tbl : Nat → Nat) (b : Nat → Nat) (startIx : Nat)
    (bitCount : Int) : Nat :=
  if bitCount ≤ 0 then 0 else
  let endIx := startIx + bitCount.toNat - 1
  let startByte := startIx / 8
  let endByte := endIx / 8
  let startBits := startIx % 8
  let endBits := endIx % 8
  if startByte = endByte then
    tbl (b startByte &&& leftMask startBits &&& rightMask endBits)
  else
    tbl (b startByte &&& leftMask startBits) +
    (∑ i ∈ Finset.Ico (startByte + 1) endByte, tbl (b i)) +
    tbl (b endByte &&& rightMask endBits)

/-- `bitCountRange(b, startIx, bitCount)`: count of set bits in the range,
with the popcount table fully initialised. -/
def bitCountRange (b : Nat → Nat) (startIx : Nat) (bitCount : Int) : Nat :=
  bitCountRangeWith bitsInByte b startIx bitCount

/-- First loop of `bitFind`: scan bit-by-bit while not byte-aligned.
Returns `(some foundIx, _)` on a hit, `(none, iBit)` with the loop's exit
value of `iBit` otherwise. -/
def scanInit (b : Nat → Nat) (val : Bool) (bitCount iBit : Nat) :
    Option Nat × Nat :=
  if h : iBit % 8 ≠ 0 ∧ iBit < bitCount then
    if bitReadOne b iBit = val then (some iBit, iBit)
    else scanInit b val bitCount (iBit + 1)
  else (none, iBit)
termination_by bitCount - iBit
decreasing_by omega

/-- Middle loop of `bitFind`: skip whole bytes equal to `notByteVal`. -/
def skipBytes (b : Nat → Nat) (notByteVal endByte iByte : Nat) : Nat :=
  if h : iByte < endByte ∧ b iByte = notByteVal then
    skipBytes b notByteVal endByte (iByte + 1)
  else iByte
termination_by endByte - iByte
decreasing_by omega

/-- Last loop of `bitFind`: plain bit-by-bit scan, returning `bitCount`
when nothing is found. -/
def scanFinal (b : Nat → Nat) (val : Bool) (bitCount iBit : Nat) : Nat :=
  if h : iBit < bitCount then
    if bitReadOne b iBit = val then iBit
    else scanFinal b val bitCount (iBit + 1)
  else bitCount
termination_by bitCount - iBit
decreasing_by omega

/-- `bitFind(b, startIx, val, bitCount)` from bits.c: two-speed scan for
the next bit equal to `val`. -/
def bitFind (b : Nat → Nat) (startIx : Nat) (val : Bool) (bitCount : Nat) : Nat :=
  let notByteVal : Nat := if val then 0 else 0xFF
  match scanInit b val bitCount startIx with
  | (some foundIx, _) => foundIx
  | (none, iBit) =>
    let endByte := (bitCount - 1) / 8
    let iByte := iBit / 8
    if iByte < endByte then
      scanFinal b val bitCount (8 * skipBytes b notByteVal endByte iByte)
    else
      scanFinal b val bitCount iBit

/-- `bitFindSet`. -/
def bitFindSet (b : Nat → Nat) (startIx bitCount : Nat) : Nat :=
  bitFind b startIx true bitCount

/-- `bitFindClear`. -/
def bitFindClear (b : Nat → Nat) (startIx bitCount : Nat) : Nat :=
  bitFind b startIx false bitCount

/-! ### Bit-level toolkit -/

lemma and_two_pow_ne_zero (x j : Nat) : (x &&& 2 ^ j ≠ 0) ↔ x.testBit j = true := by
  rw [Nat.and_two_pow]
  cases h : x.testBit j <;> simp [h]

lemma oneBit_eq (k : Nat) (hk : k < 8) : oneBit k = 2 ^ (7 - k) := by
  interval_cases k <;> rfl

/-- Reading bit `i` looks at bit `7 - i % 8` (MSB-first) of byte `i / 8`. -/
lemma bitReadOne_iff (b : Nat → Nat) (i : Nat) :
    bitReadOne b i = true ↔ (b (i / 8)).testBit (7 - i % 8) = true := by
  have h8 : i % 8 < 8 := Nat.mod_lt _ (by omega)
  rw [bitReadOne, bne_iff_ne, oneBit_eq _ h8, and_two_pow_ne_zero]

lemma leftMask_testBit : ∀ (s k : Fin 8),
    (leftMask s).testBit (7 - (k : Nat)) = decide ((s : Nat) ≤ k) := by decide

lemma rightMask_testBit : ∀ (e k : Fin 8),
    (rightMask e).testBit (7 - (k : Nat)) = decide ((k : Nat) ≤ e) := by decide

lemma ff_testBit : ∀ k : Fin 8, (0xFF : Nat).testBit (7 - (k : Nat)) = true := by decide

lemma leftMask_testBit' (s k : Nat) (hs : s < 8) (hk : k < 8) :
    ((leftMask s).testBit (7 - k) = true) ↔ s ≤ k := by
  have := leftMask_testBit ⟨s, hs⟩ ⟨k, hk⟩
  simp only [Fin.val_mk] at this
  rw [this]; simp

lemma rightMask_testBit' (e k : Nat) (he : e < 8) (hk : k < 8) :
    ((rightMask e).testBit (7 - k) = true) ↔ k ≤ e := by
  have := rightMask_testBit ⟨e, he⟩ ⟨k, hk⟩
  simp only [Fin.val_mk] at this
  rw [this]; simp

lemma ff_testBit' (k : Nat) (hk : k < 8) : (0xFF : Nat).testBit (7 - k) = true :=
  ff_testBit ⟨k, hk⟩

/-- `bitsInByte` is the population count of the low eight bits. -/
lemma bitsInByte_eq_sum (x : Nat) :
    bitsInByte x = ∑ k ∈ Finset.range 8, (if x.testBit k = true then 1 else 0) := by
  have h0 : (x &&& 1 ≠ 0) ↔ x.testBit 0 = true := and_two_pow_ne_zero x 0
  have h1 : (x &&& 2 ≠ 0) ↔ x.testBit 1 = true := and_two_pow_ne_zero x 1
  have h2 : (x &&& 4 ≠ 0) ↔ x.testBit 2 = true := and_two_pow_ne_zero x 2
  have h3 : (x &&& 8 ≠ 0) ↔ x.testBit 3 = true := and_two_pow_ne_zero x 3
  have h4 : (x &&& 16 ≠ 0) ↔ x.testBit 4 = true := and_two_pow_ne_zero x 4
  have h5 : (x &&& 32 ≠ 0) ↔ x.testBit 5 = true := and_two_pow_ne_zero x 5
  have h6 : (x &&& 64 ≠ 0) ↔ x.testBit 6 = true := and_two_pow_ne_zero x 6
  have h7 : (x &&& 128 ≠ 0) ↔ x.testBit 7 = true := and_two_pow_ne_zero x 7
  simp only [bitsInByte, Finset.sum_range_succ, Finset.sum_range_zero, Nat.zero_add,
    h0, h1, h2, h3, h4, h5, h6, h7]

/-- `bitsInByte`, summed MSB-first. -/
lemma bitsInByte_eq_sum_reflect (x : Nat) :
    bitsInByte x = ∑ k ∈ Finset.range 8, (if x.testBit (7 - k) = true then 1 else 0) := by
  rw [bitsInByte_eq_sum]
  exact (Finset.sum_range_reflect (fun k => if x.testBit k = true then 1 else 0) 8).symm

/-- Popcount of a masked byte, for a mask whose set bits are exactly the
MSB-first positions `[lo, hi)`. -/
lemma bitsInByte_and_mask (y m lo hi : Nat) (hhi : hi ≤ 8)
    (hm : ∀ k, k < 8 → ((m.testBit (7 - k) = true) ↔ lo ≤ k ∧ k < hi)) :
    bitsInByte (y &&& m) =
      ∑ k ∈ Finset.Ico lo hi, (if y.testBit (7 - k) = true then 1 else 0) := by
  rw [bitsInByte_eq_sum_reflect]
  have hsplit : ∀ k ∈ Finset.range 8,
      (if (y &&& m).testBit (7 - k) = true then 1 else 0) =
      (if lo ≤ k ∧ k < hi then (if y.testBit (7 - k) = true then 1 else 0) else 0) := by
    intro k hk
    have hk8 : k < 8 := Finset.mem_range.mp hk
    rw [Nat.testBit_land]
    by_cases hmem : lo ≤ k ∧ k < hi
    · have : m.testBit (7 - k) = true := (hm k hk8).mpr hmem
      simp [this, hmem]
    · have : ¬ (m.testBit (7 - k) = true) := fun h => hmem ((hm k hk8).mp h)
      simp only [Bool.not_eq_true] at this
      simp [this, hmem]
  rw [Finset.sum_congr rfl hsplit, ← Finset.sum_filter]
  congr 1
  ext k
  simp only [Finset.mem_filter, Finset.mem_range, Finset.mem_Ico]
  omega

/-- The per-bit indicator summed by the reference count. -/
def bitInd (b : Nat → Nat) (i : Nat) : Nat := if bitReadOne b i = true then 1 else 0

lemma bitInd_eq (b : Nat → Nat) (i : Nat) :
    bitInd b i = if (b (i / 8)).testBit (7 - i % 8) = true then 1 else 0 := by
  rw [bitInd]
  by_cases h : bitReadOne b i = true
  · rw [if_pos h, if_pos ((bitReadOne_iff b i).mp h)]
  · rw [if_neg h, if_neg (fun hh => h ((bitReadOne_iff b i).mpr hh))]

/-- Summing the indicator over an in-byte window `[8j+lo, 8j+hi)`. -/
lemma sum_bitInd_byte (b : Nat → Nat) (j lo hi : Nat) (hhi : hi ≤ 8) :
    ∑ i ∈ Finset.Ico (8 * j + lo) (8 * j + hi), bitInd b i =
      ∑ k ∈ Finset.Ico lo hi, (if (b j).testBit (7 - k) = true then 1 else 0) := by
  rw [Finset.sum_Ico_eq_sum_range, Finset.sum_Ico_eq_sum_range]
  have hlen : (8 * j + hi) - (8 * j + lo) = hi - lo := by omega
  rw [hlen]
  refine Finset.sum_congr rfl ?_
  intro t ht
  have ht' : t < hi - lo := Finset.mem_range.mp ht
  rw [bitInd_eq]
  have hdiv : (8 * j + lo + t) / 8 = j := by omega
  have hmod : (8 * j + lo + t) % 8 = lo + t := by omega
  rw [hdiv, hmod]

/-- Summing the indicator over whole bytes `[8p, 8q)`. -/
lemma sum_bitInd_blocks (b : Nat → Nat) (p : Nat) :
    ∀ q, p ≤ q →
      ∑ i ∈ Finset.Ico (8 * p) (8 * q), bitInd b i =
        ∑ j ∈ Finset.Ico p q, bitsInByte (b j) := by
  intro q
  induction q with
  | zero =>
    intro hq
    have : p = 0 := by omega
    simp [this]
  | succ q ih =>
    intro hq
    rcases Nat.lt_or_ge p (q + 1) with h | h
    · have h1 : 8 * p ≤ 8 * q := by omega
      have h2 : 8 * q ≤ 8 * (q + 1) := by omega
      rw [← Finset.sum_Ico_consecutive _ h1 h2, ih (by omega),
        Finset.sum_Ico_succ_top (by omega : p ≤ q)]
      congr 1
      have hq8 : 8 * (q + 1) = 8 * q + 8 := by omega
      have hq0 : 8 * q = 8 * q + 0 := by omega
      rw [hq8]
      conv_lhs => rw [hq0]
      rw [sum_bitInd_byte b q 0 8 (by omega), bitsInByte_eq_sum_reflect,
        Finset.range_eq_Ico]
    · have hp : p = q + 1 := by omega
      subst hp
      simp

lemma landMask_testBit (sb eb k : Nat) (hsb : sb < 8) (heb : eb < 8) (hk : k < 8) :
    ((leftMask sb &&& rightMask eb).testBit (7 - k) = true) ↔ sb ≤ k ∧ k ≤ eb := by
  rw [Nat.testBit_land, Bool.and_eq_true, leftMask_testBit' sb k hsb hk,
    rightMask_testBit' eb k heb hk]

/-- The byte-decomposed, table-accelerated count of `bitCountRange` agrees
with the naive per-bit count over `[startIx, startIx + bitCount)`. -/
lemma bitCountRange_eq_card (b : Nat → Nat) (s : Nat) (c : Int) (hc : 0 < c) :
    bitCountRange b s c =
      ((Finset.Ico s (s + c.toNat)).filter (fun i => bitReadOne b i = true)).card := by
  have hcn : 1 ≤ c.toNat := by omega
  have hcard : ((Finset.Ico s (s + c.toNat)).filter (fun i => bitReadOne b i = true)).card
      = ∑ i ∈ Finset.Ico s (s + c.toNat), bitInd b i := by
    rw [Finset.card_filter]
    simp [bitInd]
  rw [hcard, bitCountRange, bitCountRangeWith, if_neg (by omega)]
  set cn := c.toNat with hcndef
  have hsb8 : s % 8 < 8 := Nat.mod_lt _ (by omega)
  have heb8 : (s + cn - 1) % 8 < 8 := Nat.mod_lt _ (by omega)
  by_cases hb : s / 8 = (s + cn - 1) / 8
  · rw [if_pos hb]
    have hIco : Finset.Ico s (s + cn) =
        Finset.Ico (8 * (s / 8) + s % 8) (8 * (s / 8) + ((s + cn - 1) % 8 + 1)) := by
      congr 1 <;> omega
    rw [hIco, sum_bitInd_byte b (s / 8) (s % 8) ((s + cn - 1) % 8 + 1) (by omega),
      Nat.land_assoc,
      bitsInByte_and_mask (b (s / 8)) (leftMask (s % 8) &&& rightMask ((s + cn - 1) % 8))
        (s % 8) ((s + cn - 1) % 8 + 1) (by omega)]
    intro k hk
    rw [landMask_testBit _ _ _ hsb8 heb8 hk]
    omega
  · rw [if_neg hb]
    have hlt : s / 8 < (s + cn - 1) / 8 := by omega
    have h1 : s ≤ 8 * (s / 8 + 1) := by omega
    have h2 : 8 * (s / 8 + 1) ≤ 8 * ((s + cn - 1) / 8) := by omega
    have h3 : 8 * ((s + cn - 1) / 8) ≤ s + cn := by omega
    rw [← Finset.sum_Ico_consecutive (f := bitInd b) h1 (le_trans h2 h3),
      ← Finset.sum_Ico_consecutive (f := bitInd b) h2 h3]
    have hpart1 : ∑ i ∈ Finset.Ico s (8 * (s / 8 + 1)), bitInd b i =
        bitsInByte (b (s / 8) &&& leftMask (s % 8)) := by
      have hIco : Finset.Ico s (8 * (s / 8 + 1)) =
          Finset.Ico (8 * (s / 8) + s % 8) (8 * (s / 8) + 8) := by
        congr 1 <;> omega
      rw [hIco, sum_bitInd_byte b (s / 8) (s % 8) 8 (by omega),
        bitsInByte_and_mask (b (s / 8)) (leftMask (s % 8)) (s % 8) 8 (by omega)]
      intro k hk
      rw [leftMask_testBit' (s % 8) k hsb8 hk]
      omega
    have hpart2 : ∑ i ∈ Finset.Ico (8 * (s / 8 + 1)) (8 * ((s + cn - 1) / 8)), bitInd b i =
        ∑ j ∈ Finset.Ico (s / 8 + 1) ((s + cn - 1) / 8), bitsInByte (b j) :=
      sum_bitInd_blocks b (s / 8 + 1) ((s + cn - 1) / 8) (by omega)
    have hpart3 : ∑ i ∈ Finset.Ico (8 * ((s + cn - 1) / 8)) (s + cn), bitInd b i =
        bitsInByte (b ((s + cn - 1) / 8) &&& rightMask ((s + cn - 1) % 8)) := by
      have hIco : Finset.Ico (8 * ((s + cn - 1) / 8)) (s + cn) =
          Finset.Ico (8 * ((s + cn - 1) / 8) + 0)
            (8 * ((s + cn - 1) / 8) + ((s + cn - 1) % 8 + 1)) := by
        congr 1 <;> omega
      rw [hIco, sum_bitInd_byte b ((s + cn - 1) / 8) 0 ((s + cn - 1) % 8 + 1) (by omega),
        bitsInByte_and_mask (b ((s + cn - 1) / 8)) (rightMask ((s + cn - 1) % 8)) 0
          ((s + cn - 1) % 8 + 1) (by omega)]
      intro k hk
      rw [rightMask_testBit' ((s + cn - 1) % 8) k heb8 hk]
      omega
    rw [hpart1, hpart2, hpart3]
    omega

/-- Effect of `bitSetRange` on a single bit: bits inside `[startIx,
startIx+count)` come out set, all others keep their old value. -/
lemma bitReadOne_bitSetRange (b : Nat → Nat) (s : Nat) (c : Int) (hc : 0 < c) (i : Nat) :
    bitReadOne (bitSetRange b s c) i = true ↔
      (s ≤ i ∧ i < s + c.toNat) ∨ bitReadOne b i = true := by
  have hcn : 1 ≤ c.toNat := by omega
  set cn := c.toNat with hcndef
  have hk8 : i % 8 < 8 := Nat.mod_lt _ (by omega)
  have hsb8 : s % 8 < 8 := Nat.mod_lt _ (by omega)
  have heb8 : (s + cn - 1) % 8 < 8 := Nat.mod_lt _ (by omega)
  rw [bitReadOne_iff, bitReadOne_iff, bitSetRange, if_neg (by omega)]
  by_cases hb : s / 8 = (s + cn - 1) / 8
  · rw [if_pos hb]
    by_cases hj : i / 8 = s / 8
    · rw [if_pos hj, Nat.testBit_lor, Bool.or_eq_true,
        landMask_testBit _ _ _ hsb8 heb8 hk8]
      have harith : (s % 8 ≤ i % 8 ∧ i % 8 ≤ (s + cn - 1) % 8) ↔ (s ≤ i ∧ i < s + cn) := by
        omega
      rw [harith]
      exact or_comm
    · rw [if_neg hj]
      have hout : ¬(s ≤ i ∧ i < s + cn) := by omega
      tauto
  · rw [if_neg hb]
    have hblt : s / 8 < (s + cn - 1) / 8 := by omega
    by_cases hj1 : i / 8 = s / 8
    · rw [if_pos hj1, Nat.testBit_lor, Bool.or_eq_true,
        leftMask_testBit' (s % 8) (i % 8) hsb8 hk8]
      have harith : (s % 8 ≤ i % 8) ↔ (s ≤ i ∧ i < s + cn) := by omega
      rw [harith]
      exact or_comm
    · rw [if_neg hj1]
      by_cases hmid : s / 8 < i / 8 ∧ i / 8 < (s + cn - 1) / 8
      · rw [if_pos hmid]
        have hin : s ≤ i ∧ i < s + cn := by omega
        simp [ff_testBit' _ hk8, hin]
      · rw [if_neg hmid]
        by_cases hj2 : i / 8 = (s + cn - 1) / 8
        · rw [if_pos hj2, Nat.testBit_lor, Bool.or_eq_true,
            rightMask_testBit' ((s + cn - 1) % 8) (i % 8) heb8 hk8]
          have harith : (i % 8 ≤ (s + cn - 1) % 8) ↔ (s ≤ i ∧ i < s + cn) := by omega
          rw [harith]
          exact or_comm
        · rw [if_neg hj2]
          have hout : ¬(s ≤ i ∧ i < s + cn) := by omega
          tauto

/-- `bitSetRange` with `count <= 0` is a no-op. -/
lemma bitSetRange_nonpos (b : Nat → Nat) (s : Nat) (c : Int) (hc : c ≤ 0) :
    bitSetRange b s c = b := by
  rw [bitSetRange, if_pos hc]

/-- Out-of-range bits are untouched by `bitSetRange`. -/
lemma bitReadOne_bitSetRange_frame (b : Nat → Nat) (s : Nat) (c : Int) (hc : 0 < c)
    (i : Nat) (hi : i < s ∨ s + c.toNat ≤ i) :
    bitReadOne (bitSetRange b s c) i = bitReadOne b i := by
  have hiff := bitReadOne_bitSetRange b s c hc i
  have hout : ¬(s ≤ i ∧ i < s + c.toNat) := by omega
  cases h1 : bitReadOne (bitSetRange b s c) i <;> cases h2 : bitReadOne b i
  · rfl
  · exact absurd (hiff.mpr (Or.inr h2)) (by simp [h1])
  · exact absurd ((hiff.mp h1).resolve_right (by simp [h2])) hout
  · rfl

/-! ### Correctness of the two-speed scan `bitFind` -/

/-- `r` is the least index at or after `startIx` whose bit equals `val`,
or `bitCount` when there is none. -/
def findSpec (b : Nat → Nat) (val : Bool) (startIx bitCount r : Nat) : Prop :=
  (r = bitCount ∧ ∀ j, startIx ≤ j → j < bitCount → bitReadOne b j ≠ val) ∨
  (startIx ≤ r ∧ r < bitCount ∧ bitReadOne b r = val ∧
    ∀ j, startIx ≤ j → j < r → bitReadOne b j ≠ val)

lemma findSpec_mono (b : Nat → Nat) (val : Bool) (s m bitCount r : Nat)
    (h : findSpec b val m bitCount r) (hsm : s ≤ m)
    (hno : ∀ j, s ≤ j → j < m → bitReadOne b j ≠ val) :
    findSpec b val s bitCount r := by
  rcases h with ⟨hr, hnone⟩ | ⟨hm, hlt, hhit, hbefore⟩
  · refine Or.inl ⟨hr, fun j hj hjlt => ?_⟩
    rcases Nat.lt_or_ge j m with hjm | hjm
    · exact hno j hj hjm
    · exact hnone j hjm hjlt
  · refine Or.inr ⟨le_trans hsm hm, hlt, hhit, fun j hj hjlt => ?_⟩
    rcases Nat.lt_or_ge j m with hjm | hjm
    · exact hno j hj hjm
    · exact hbefore j hjm hjlt

lemma findSpec_unique (b : Nat → Nat) (val : Bool) (s bitCount r r' : Nat)
    (h : findSpec b val s bitCount r) (h' : findSpec b val s bitCount r') : r = r' := by
  rcases h with ⟨hr, hnone⟩ | ⟨hm, hlt, hhit, hbefore⟩ <;>
    rcases h' with ⟨hr', hnone'⟩ | ⟨hm', hlt', hhit', hbefore'⟩
  · omega
  · exact absurd hhit' (hnone r' hm' hlt')
  · exact absurd hhit (hnone' r hm hlt)
  · rcases Nat.lt_trichotomy r r' with h | h | h
    · exact absurd hhit (hbefore' r hm h)
    · exact h
    · exact absurd hhit' (hbefore r' hm' h)

lemma scanFinal_findSpec (b : Nat → Nat) (val : Bool) (bitCount : Nat) :
    ∀ d iBit, bitCount - iBit ≤ d →
      findSpec b val iBit bitCount (scanFinal b val bitCount iBit) := by
  intro d
  induction d with
  | zero =>
    intro iBit hd
    rw [scanFinal, dif_neg (by omega)]
    exact Or.inl ⟨rfl, fun j hj hjlt => by omega⟩
  | succ d ih =>
    intro iBit hd
    rw [scanFinal]
    by_cases hlt : iBit < bitCount
    · rw [dif_pos hlt]
      by_cases hhit : bitReadOne b iBit = val
      · rw [if_pos hhit]
        exact Or.inr ⟨le_refl _, hlt, hhit, fun j hj hjlt => by omega⟩
      · rw [if_neg hhit]
        refine findSpec_mono b val iBit (iBit + 1) bitCount _
          (ih (iBit + 1) (by omega)) (by omega) ?_
        intro j hj hjlt
        have : j = iBit := by omega
        rw [this]
        exact hhit
    · rw [dif_neg hlt]
      exact Or.inl ⟨rfl, fun j hj hjlt => by omega⟩

lemma scanFinal_findSpec' (b : Nat → Nat) (val : Bool) (bitCount iBit : Nat) :
    findSpec b val iBit bitCount (scanFinal b val bitCount iBit) :=
  scanFinal_findSpec b val bitCount (bitCount - iBit) iBit (le_refl _)

lemma scanInit_spec (b : Nat → Nat) (val : Bool) (bitCount : Nat) :
    ∀ d iBit, bitCount - iBit ≤ d →
      (∀ f y, scanInit b val bitCount iBit = (some f, y) →
        iBit ≤ f ∧ f < bitCount ∧ bitReadOne b f = val ∧
          ∀ j, iBit ≤ j → j < f → bitReadOne b j ≠ val) ∧
      (∀ y, scanInit b val bitCount iBit = (none, y) →
        iBit ≤ y ∧ (y % 8 = 0 ∨ bitCount ≤ y) ∧
          ∀ j, iBit ≤ j → j < y → bitReadOne b j ≠ val) := by
  intro d
  induction d with
  | zero =>
    intro iBit hd
    have hge : bitCount ≤ iBit := by omega
    rw [scanInit, dif_neg (by omega)]
    constructor
    · intro f y h
      cases h
    · intro y h
      cases h
      exact ⟨le_refl _, Or.inr hge, fun j hj hjlt => by omega⟩
  | succ d ih =>
    intro iBit hd
    rw [scanInit]
    by_cases hc : iBit % 8 ≠ 0 ∧ iBit < bitCount
    · rw [dif_pos hc]
      by_cases hhit : bitReadOne b iBit = val
      · rw [if_pos hhit]
        constructor
        · intro f y h
          cases h
          exact ⟨le_refl _, hc.2, hhit, fun j hj hjlt => by omega⟩
        · intro y h
          cases h
      · rw [if_neg hhit]
        have hrec := ih (iBit + 1) (by omega)
        constructor
        · intro f y h
          obtain ⟨h1, h2, h3, h4⟩ := hrec.1 f y h
          refine ⟨by omega, h2, h3, fun j hj hjlt => ?_⟩
          rcases Nat.lt_or_ge j (iBit + 1) with hj1 | hj1
          · have : j = iBit := by omega
            rw [this]; exact hhit
          · exact h4 j hj1 hjlt
        · intro y h
          obtain ⟨h1, h2, h3⟩ := hrec.2 y h
          refine ⟨by omega, h2, fun j hj hjlt => ?_⟩
          rcases Nat.lt_or_ge j (iBit + 1) with hj1 | hj1
          · have : j = iBit := by omega
            rw [this]; exact hhit
          · exact h3 j hj1 hjlt
    · rw [dif_neg hc]
      constructor
      · intro f y h
        cases h
      · intro y h
        cases h
        exact ⟨le_refl _, by omega, fun j hj hjlt => by omega⟩

lemma skipBytes_spec (b : Nat → Nat) (nbv endByte : Nat) :
    ∀ d iByte, endByte - iByte ≤ d →
      iByte ≤ skipBytes b nbv endByte iByte ∧
      (iByte ≤ endByte → skipBytes b nbv endByte iByte ≤ endByte) ∧
      (∀ jB, iByte ≤ jB → jB < skipBytes b nbv endByte iByte → b jB = nbv) := by
  intro d
  induction d with
  | zero =>
    intro iByte hd
    rw [skipBytes, dif_neg (by omega)]
    exact ⟨le_refl _, fun h => h, fun jB h1 h2 => by omega⟩
  | succ d ih =>
    intro iByte hd
    rw [skipBytes]
    by_cases hc : iByte < endByte ∧ b iByte = nbv
    · rw [dif_pos hc]
      obtain ⟨h1, h2, h3⟩ := ih (iByte + 1) (by omega)
      refine ⟨by omega, fun _ => h2 (by omega), fun jB hj1 hj2 => ?_⟩
      rcases Nat.lt_or_ge jB (iByte + 1) with hj | hj
      · have : jB = iByte := by omega
        rw [this]; exact hc.2
      · exact h3 jB hj hj2
    · rw [dif_neg hc]
      exact ⟨le_refl _, fun h => h, fun jB h1 h2 => by omega⟩

/-- A byte equal to the "not wanted" value contains no bit equal to `val`. -/
lemma notByteVal_no_hit (b : Nat → Nat) (val : Bool) (j : Nat)
    (hb : b (j / 8) = (if val then 0 else 0xFF)) : bitReadOne b j ≠ val := by
  intro hhit
  have hk8 : j % 8 < 8 := Nat.mod_lt _ (by omega)
  cases val with
  | true =>
    rw [if_pos rfl] at hb
    rw [bitReadOne_iff, hb, Nat.zero_testBit] at hhit
    cases hhit
  | false =>
    rw [if_neg (by simp)] at hb
    have htrue : bitReadOne b j = true := by
      rw [bitReadOne_iff, hb]
      exact ff_testBit' _ hk8
    rw [hhit] at htrue
    cases htrue

/-- The two-speed scan satisfies the least-index specification. -/
lemma bitFind_findSpec (b : Nat → Nat) (startIx : Nat) (val : Bool) (bitCount : Nat) :
    findSpec b val startIx bitCount (bitFind b startIx val bitCount) := by
  rw [bitFind]
  rcases hscan : scanInit b val bitCount startIx with ⟨fst, iBit⟩
  cases fst with
  | some f =>
    obtain ⟨h1, h2, h3, h4⟩ :=
      (scanInit_spec b val bitCount (bitCount - startIx) startIx (le_refl _)).1 f iBit hscan
    exact Or.inr ⟨h1, h2, h3, h4⟩
  | none =>
    obtain ⟨h1, h2, h3⟩ :=
      (scanInit_spec b val bitCount (bitCount - startIx) startIx (le_refl _)).2 iBit hscan
    simp only
    by_cases hbr : iBit / 8 < (bitCount - 1) / 8
    · rw [if_pos hbr]
      have hmod : iBit % 8 = 0 := by
        rcases h2 with h | h
        · exact h
        · exfalso; omega
      obtain ⟨hs1, hs2, hs3⟩ := skipBytes_spec b (if val then 0 else 0xFF)
        ((bitCount - 1) / 8) ((bitCount - 1) / 8 - iBit / 8) (iBit / 8) (le_refl _)
      set r0 := skipBytes b (if val then 0 else 0xFF) ((bitCount - 1) / 8) (iBit / 8) with hr0
      have hfin := scanFinal_findSpec' b val bitCount (8 * r0)
      have hstep : findSpec b val iBit bitCount (scanFinal b val bitCount (8 * r0)) := by
        refine findSpec_mono b val iBit (8 * r0) bitCount _ hfin (by omega) ?_
        intro j hj hjlt
        exact notByteVal_no_hit b val j (hs3 (j / 8) (by omega) (by omega))
      exact findSpec_mono b val startIx iBit bitCount _ hstep h1 h3
    · rw [if_neg hbr]
      exact findSpec_mono b val startIx iBit bitCount _
        (scanFinal_findSpec' b val bitCount iBit) h1 h3

/-! ### The extent gap finder `fileOffsetSizeFindGap` (common.c) -/

/-- `struct fileOffsetSize` minus its intrusive `next` pointer: the list
structure is carried by `List`. -/
structure FileOffsetSize where
  offset : Nat
  size : Nat
deriving DecidableEq, Repr

/-- The loop body of `fileOffsetSizeFindGap`: `pt` is the current item,
the list holds the remaining items reachable through `next`. -/
def findGapGo (pt : FileOffsetSize) :
    List FileOffsetSize → FileOffsetSize × Option FileOffsetSize
  | [] => (pt, none)
  | next :: rest =>
    if next.offset = pt.offset + pt.size then findGapGo next rest
    else (pt, some next)

/-- `fileOffsetSizeFindGap(list, &beforeGap, &afterGap)`.  The C function
dereferences `list` unconditionally on the first iteration, so the empty
list (a NULL pointer) has no defined result: it is modelled as `none`. -/
def fileOffsetSizeFindGap :
    List FileOffsetSize → Option (FileOffsetSize × Option FileOffsetSize)
  | [] => none
  | pt :: rest => some (findGapGo pt rest)

lemma findGapGo_spec (rest : List FileOffsetSize) :
    ∀ pt, ∃ k, (pt :: rest).get? k = some (findGapGo pt rest).1 ∧
      (pt :: rest).get? (k + 1) = (findGapGo pt rest).2 ∧
      (∀ j, j < k → ∀ x y, (pt :: rest).get? j = some x →
        (pt :: rest).get? (j + 1) = some y → y.offset = x.offset + x.size) ∧
      (∀ a, (findGapGo pt rest).2 = some a →
        a.offset ≠ (findGapGo pt rest).1.offset + (findGapGo pt rest).1.size) := by
  induction rest with
  | nil =>
    intro pt
    refine ⟨0, rfl, rfl, fun j hj => by omega, fun a ha => by cases ha⟩
  | cons next rest' ih =>
    intro pt
    by_cases hc : next.offset = pt.offset + pt.size
    · obtain ⟨k, h1, h2, h3, h4⟩ := ih next
      rw [findGapGo, if_pos hc]
      refine ⟨k + 1, h1, h2, fun j hj x y hx hy => ?_, h4⟩
      cases j with
      | zero =>
        cases hx; cases hy
        exact hc
      | succ j' =>
        exact h3 j' (by omega) x y hx hy
    · rw [findGapGo, if_neg hc]
      refine ⟨0, rfl, rfl, fun j hj => by omega, fun a ha => ?_⟩
      cases ha
      exact hc

/-! ### The lazily initialised popcount table (bits.c globals) -/

/-- The global state behind `bitCountRange`: the `inittedBitsInByte` flag
and the `bitsInByte[256]` array.  C globals start zeroed. -/
structure BitsTableState where
  initted : Bool
  table : Nat → Nat

/-- Program start: flag clear, table all zero. -/
def initialTableState : BitsTableState := ⟨false, fun _ => 0⟩

/-- `bitsInByteInit()`: fill the 256-entry table unless already done. -/
def bitsInByteInitSt (s : BitsTableState) : BitsTableState :=
  if s.initted then s
  else ⟨true, fun i => if i < 256 then bitsInByte i else s.table i⟩

/-- `bitCountRange` as it actually runs: consults the flag, lazily runs
`bitsInByteInit`, and indexes the table; returns the count and the table
state afterwards. -/
def bitCountRangeSt (s : BitsTableState) (b : Nat → Nat) (startIx : Nat)
    (bitCount : Int) : Nat × BitsTableState :=
  if bitCount ≤ 0 then (0, s)
  else
    let s' := if s.initted then s else bitsInByteInitSt s
    (bitCountRangeWith s'.table b startIx bitCount, s')

/-- The states reachable from program start under any interleaving of
`bitsInByteInit` and `bitCountRange` calls. -/
def tableReachable (s : BitsTableState) : Prop :=
  s = initialTableState ∨ s = bitsInByteInitSt initialTableState

lemma bitsInByteInitSt_initted (s : BitsTableState) :
    (bitsInByteInitSt s).initted = true := by
  rw [bitsInByteInitSt]
  by_cases h : s.initted
  · rw [if_pos h]
    exact h
  · rw [if_neg h]

lemma bitsInByteInitSt_idem (s : BitsTableState) :
    bitsInByteInitSt (bitsInByteInitSt s) = bitsInByteInitSt s := by
  conv_lhs => rw [bitsInByteInitSt]
  rw [if_pos (bitsInByteInitSt_initted s)]

lemma tableReachable_table (s : BitsTableState) (h : tableReachable s)
    (hs : s.initted = true) : ∀ i, i < 256 → s.table i = bitsInByte i := by
  rcases h with h | h
  · rw [h] at hs
    cases hs
  · intro i hi
    rw [h, bitsInByteInitSt, if_neg (by rw [initialTableState]; simp)]
    simp [hi]

lemma leftMask_le (k : Nat) : leftMask k ≤ 255 := by
  rcases k with _ | _ | _ | _ | _ | _ | _ | _ | k <;> simp [leftMask]

lemma rightMask_le (k : Nat) : rightMask k ≤ 255 := by
  rcases k with _ | _ | _ | _ | _ | _ | _ | _ | k <;> simp [rightMask]

/-- With bytes below 256, `bitCountRangeWith` only ever indexes the table
below 256, so the initialised table computes the true count. -/
lemma bitCountRangeWith_table (tbl b : Nat → Nat) (startIx : Nat) (bitCount : Int)
    (htbl : ∀ i, i < 256 → tbl i = bitsInByte i) (hbytes : ∀ i, b i < 256) :
    bitCountRangeWith tbl b startIx bitCount = bitCountRange b startIx bitCount := by
  rw [bitCountRange, bitCountRangeWith, bitCountRangeWith]
  by_cases hc : bitCount ≤ 0
  · rw [if_pos hc, if_pos hc]
  · rw [if_neg hc, if_neg hc]
    have hland : ∀ x m : Nat, m ≤ 255 → x &&& m < 256 :=
      fun x m hm => lt_of_le_of_lt (le_trans Nat.and_le_right hm) (by omega)
    by_cases hone : startIx / 8 = (startIx + bitCount.toNat - 1) / 8
    · rw [if_pos hone, if_pos hone, htbl _ (hland _ _ (rightMask_le _))]
    · rw [if_neg hone, if_neg hone,
        htbl _ (hland _ _ (leftMask_le _)), htbl _ (hland _ _ (rightMask_le _))]
      congr 1
      refine congrArg₂ _ rfl ?_
      exact Finset.sum_congr rfl fun i _ => htbl _ (hbytes i)

/-! ### Cache Controller read path (udc)

Modelled from the spec: the Cache Controller implementation (`udcRead` in
udc.c) is not part of this source tree — only its interface header is —
so the read path of spec §4.5 is embedded from the spec's words: per-entry
state is the fetched-block bitmap plus the sparse data file; a read
computes the overlapped block range, fetches every missing block of that
range from the remote source into the sparse file and marks its bit, then
serves the requested bytes from the sparse file. -/

/-- Modelled from the spec: the mutable per-`CacheEntry` state of §4.5 that
the read path touches — the fetched-block bitmap and the sparse data file
(one byte per offset). -/
structure UdcState where
  bits : Nat → Bool
  sparseData : Nat → Nat

/-- A fresh cache entry: zero bitmap, zero-filled sparse file. -/
def udcInitialState : UdcState := ⟨fun _ => false, fun _ => 0⟩

/-- Modelled from the spec: fetch one missing block `blk` of a source of
size `S` with block size `B` — copy its bytes into the sparse file and set
its bit; already-fetched blocks are left alone. -/
def udcFetchBlock (src : Nat → Nat) (S B : Nat) (st : UdcState) (blk : Nat) :
    UdcState :=
  if st.bits blk then st
  else
    { bits := fun j => if j = blk then true else st.bits j
      sparseData := fun p =>
        if blk * B ≤ p ∧ p < (blk + 1) * B ∧ p < S then src p else st.sparseData p }

/-- Fetch the `n` consecutive blocks starting at `blk` that a read overlaps
(the missing ones among them). -/
def udcFetchBlocks (src : Nat → Nat) (S B : Nat) : UdcState → Nat → Nat → UdcState
  | st, _, 0 => st
  | st, blk, n + 1 => udcFetchBlocks src S B (udcFetchBlock src S B st blk) (blk + 1) n

/-- Modelled from the spec: `udcRead` — resolve all blocks overlapping
`[offset, offset+len)`, then serve the bytes from the sparse file. -/
def udcRead (src : Nat → Nat) (S B : Nat) (st : UdcState) (offset len : Nat) :
    List Nat × UdcState :=
  let firstBlk := offset / B
  let endBlk := (offset + len + B - 1) / B
  let st' := udcFetchBlocks src S B st firstBlk (endBlk - firstBlk)
  ((List.range len).map (fun i => st'.sparseData (offset + i)), st')

/-- Run a sequence of reads, collecting each read's returned bytes. -/
def udcRunReqs (src : Nat → Nat) (S B : Nat) :
    UdcState → List (Nat × Nat) → List (List Nat)
  | _, [] => []
  | st, r :: rs =>
    (udcRead src S B st r.1 r.2).1 ::
      udcRunReqs src S B (udcRead src S B st r.1 r.2).2 rs

/-- Cache invariant: a set bit means the sparse file holds the source's
bytes for that whole block (within the source's size). -/
def udcGood (src : Nat → Nat) (S B : Nat) (st : UdcState) : Prop :=
  ∀ p, p < S → st.bits (p / B) = true → st.sparseData p = src p

lemma div_eq_iff_block (B p blk : Nat) (hB : 0 < B) :
    p / B = blk ↔ blk * B ≤ p ∧ p < (blk + 1) * B := by
  constructor
  · intro h
    subst h
    refine ⟨Nat.div_mul_le_self p B, ?_⟩
    calc p = B * (p / B) + p % B := (Nat.div_add_mod p B).symm
      _ < B * (p / B) + B := by
          have := Nat.mod_lt p hB
          omega
      _ = (p / B + 1) * B := by ring
  · intro ⟨h1, h2⟩
    exact Nat.div_eq_of_lt_le h1 h2

lemma udcFetchBlock_good (src : Nat → Nat) (S B : Nat) (hB : 0 < B)
    (st : UdcState) (blk : Nat) (hgood : udcGood src S B st) :
    udcGood src S B (udcFetchBlock src S B st blk) := by
  intro p hp hbit
  rw [udcFetchBlock] at hbit ⊢
  by_cases hal : st.bits blk
  · rw [if_pos hal] at hbit ⊢
    exact hgood p hp hbit
  · rw [if_neg hal] at hbit ⊢
    simp only at hbit ⊢
    by_cases hpb : p / B = blk
    · rw [if_pos ⟨((div_eq_iff_block B p blk hB).mp hpb).1,
        ((div_eq_iff_block B p blk hB).mp hpb).2, hp⟩]
    · rw [if_neg hpb] at hbit
      have hnot : ¬(blk * B ≤ p ∧ p < (blk + 1) * B ∧ p < S) := by
        intro ⟨ha, hb, _⟩
        exact hpb ((div_eq_iff_block B p blk hB).mpr ⟨ha, hb⟩)
      rw [if_neg hnot]
      exact hgood p hp hbit

lemma udcFetchBlock_bits_mono (src : Nat → Nat) (S B : Nat) (st : UdcState)
    (blk j : Nat) (h : st.bits j = true) :
    (udcFetchBlock src S B st blk).bits j = true := by
  rw [udcFetchBlock]
  by_cases hal : st.bits blk
  · rw [if_pos hal]
    exact h
  · rw [if_neg hal]
    simp only
    by_cases hj : j = blk
    · rw [if_pos hj]
    · rw [if_neg hj]
      exact h

lemma udcFetchBlock_bits_self (src : Nat → Nat) (S B : Nat) (st : UdcState)
    (blk : Nat) : (udcFetchBlock src S B st blk).bits blk = true := by
  rw [udcFetchBlock]
  by_cases hal : st.bits blk
  · rw [if_pos hal]
    exact hal
  · rw [if_neg hal]
    simp

lemma udcFetchBlocks_good (src : Nat → Nat) (S B : Nat) (hB : 0 < B) :
    ∀ n st blk, udcGood src S B st →
      udcGood src S B (udcFetchBlocks src S B st blk n) := by
  intro n
  induction n with
  | zero => intro st blk h; exact h
  | succ n ih =>
    intro st blk h
    exact ih _ _ (udcFetchBlock_good src S B hB st blk h)

lemma udcFetchBlocks_bits_mono (src : Nat → Nat) (S B : Nat) :
    ∀ n st blk j, st.bits j = true →
      (udcFetchBlocks src S B st blk n).bits j = true := by
  intro n
  induction n with
  | zero => intro st blk j h; exact h
  | succ n ih =>
    intro st blk j h
    exact ih _ _ _ (udcFetchBlock_bits_mono src S B st blk j h)

lemma udcFetchBlocks_bits (src : Nat → Nat) (S B : Nat) :
    ∀ n st blk j, blk ≤ j → j < blk + n →
      (udcFetchBlocks src S B st blk n).bits j = true := by
  intro n
  induction n with
  | zero => intro st blk j h1 h2; omega
  | succ n ih =>
    intro st blk j h1 h2
    rcases Nat.eq_or_lt_of_le h1 with heq | hlt
    · exact udcFetchBlocks_bits_mono src S B n _ _ j
        (heq ▸ udcFetchBlock_bits_self src S B st blk)
    · exact ih _ (blk + 1) j (by omega) (by omega)

lemma udcRead_correct (src : Nat → Nat) (S B : Nat) (st : UdcState)
    (offset len : Nat) (hB : 0 < B) (hgood : udcGood src S B st)
    (hlen : offset + len ≤ S) :
    (udcRead src S B st offset len).1 =
      (List.range len).map (fun i => src (offset + i)) ∧
    udcGood src S B (udcRead src S B st offset len).2 := by
  rw [udcRead]
  simp only
  have hgood' : udcGood src S B
      (udcFetchBlocks src S B st (offset / B)
        ((offset + len + B - 1) / B - offset / B)) :=
    udcFetchBlocks_good src S B hB _ st (offset / B) hgood
  refine ⟨?_, hgood'⟩
  refine List.map_congr_left ?_
  intro i hi
  have hiLen : i < len := List.mem_range.mp hi
  have hp : offset + i < S := by omega
  have hblkLo : offset / B ≤ (offset + i) / B := Nat.div_le_div_right (by omega)
  have hblkHi : (offset + i) / B < (offset + len + B - 1) / B := by
    have h1 : (offset + i) / B ≤ (offset + len - 1) / B :=
      Nat.div_le_div_right (by omega)
    have h2 : (offset + len - 1) + B = offset + len + B - 1 := by omega
    have h3 : ((offset + len - 1) + B) / B = (offset + len - 1) / B + 1 :=
      Nat.add_div_right _ hB
    have h4 : (offset + len - 1 + B) / B = (offset + len + B - 1) / B := by rw [h2]
    omega
  have hbit : (udcFetchBlocks src S B st (offset / B)
      ((offset + len + B - 1) / B - offset / B)).bits ((offset + i) / B) = true :=
    udcFetchBlocks_bits src S B _ st (offset / B) ((offset + i) / B)
      hblkLo (by omega)
  exact hgood' (offset + i) hp hbit

lemma udcInitialState_good (src : Nat → Nat) (S B : Nat) :
    udcGood src S B udcInitialState := by
  intro p hp hbit
  cases hbit

lemma udcRunReqs_correct (src : Nat → Nat) (S B : Nat) (hB : 0 < B) :
    ∀ reqs st, udcGood src S B st → (∀ r ∈ reqs, r.1 + r.2 ≤ S) →
      udcRunReqs src S B st reqs =
        reqs.map (fun r => (List.range r.2).map (fun i => src (r.1 + i))) := by
  intro reqs
  induction reqs with
  | nil => intro st hgood hreq; rfl
  | cons r rs ih =>
    intro st hgood hreq
    rw [udcRunReqs, List.map_cons]
    obtain ⟨h1, h2⟩ := udcRead_correct src S B st r.1 r.2 hB hgood
      (hreq r (List.mem_cons_self r rs))
    rw [h1, ih _ h2 (fun x hx => hreq x (List.mem_cons_of_mem r hx))]

/-! ### Claim theorems -/

/-- C1: `bitFind(b, startIx, val, bitCount)` returns the smallest index in
`[startIx, bitCount)` whose bit equals `val`, and `bitCount` when there is
none; in particular, over a vector whose only set bits form one contiguous
run `[a, a+c)` inside the capacity, a search for a set bit from any
`startIx ≤ a` returns `a`, and from any `startIx ≥ a+c` returns
`bitCount`. -/
theorem bitFind_correct (b : Nat → Nat) (startIx : Nat) (val : Bool) (bitCount : Nat) :
    ((bitFind b startIx val bitCount = bitCount ∧
        ∀ j, startIx ≤ j → j < bitCount → bitReadOne b j ≠ val) ∨
      (startIx ≤ bitFind b startIx val bitCount ∧
        bitFind b startIx val bitCount < bitCount ∧
        bitReadOne b (bitFind b startIx val bitCount) = val ∧
        ∀ j, startIx ≤ j → j < bitFind b startIx val bitCount →
          bitReadOne b j ≠ val)) ∧
    (∀ a c, 0 < c → a + c ≤ bitCount →
      (∀ j, j < bitCount → (bitReadOne b j = true ↔ a ≤ j ∧ j < a + c)) →
      (startIx ≤ a → bitFind b startIx true bitCount = a) ∧
      (a + c ≤ startIx → bitFind b startIx true bitCount = bitCount)) := by
  refine ⟨bitFind_findSpec b startIx val bitCount, ?_⟩
  intro a c hc hle hrun
  constructor
  · intro hsa
    rcases bitFind_findSpec b startIx true bitCount with ⟨hr, hnone⟩ | ⟨h1, h2, h3, h4⟩
    · exfalso
      exact hnone a hsa (by omega) ((hrun a (by omega)).mpr ⟨le_refl a, by omega⟩)
    · have hra := (hrun _ h2).mp h3
      by_contra hne
      exact h4 a hsa (by omega) ((hrun a (by omega)).mpr ⟨le_refl a, by omega⟩)
  · intro hbs
    rcases bitFind_findSpec b startIx true bitCount with ⟨hr, _⟩ | ⟨h1, h2, h3, _⟩
    · exact hr
    · exfalso
      have hra := (hrun _ h2).mp h3
      omega

theorem bitFind_correct_witness :
    bitFind (fun i => if i = 0 then 12 else 0) 0 true 8 = 4 ∧
    bitFind (fun i => if i = 0 then 12 else 0) 6 true 8 = 8 := by
  constructor
  · exact ((bitFind_correct (fun i => if i = 0 then 12 else 0) 0 true 8).2 4 2
      (by decide) (by decide) (by decide)).1 (by decide)
  · exact ((bitFind_correct (fun i => if i = 0 then 12 else 0) 6 true 8).2 4 2
      (by decide) (by decide) (by decide)).2 (by decide)

/-- C2: on a non-empty extent list sorted by ascending offset with no
overlaps, `fileOffsetSizeFindGap` returns the first element whose successor
is absent or not contiguous with it, together with that successor (`none`
when the whole list is contiguous), and every consecutive pair before the
gap is contiguous. -/
theorem fileOffsetSizeFindGap_spec (l : List FileOffsetSize) (hne : l ≠ [])
    (hsorted : l.Chain' (fun x y => x.offset + x.size ≤ y.offset)) :
    ∃ bg ag k, fileOffsetSizeFindGap l = some (bg, ag) ∧
      l.get? k = some bg ∧ l.get? (k + 1) = ag ∧
      (∀ j, j < k → ∀ x y, l.get? j = some x → l.get? (j + 1) = some y →
        y.offset = x.offset + x.size) ∧
      (∀ a, ag = some a → a.offset ≠ bg.offset + bg.size) := by
  cases l with
  | nil => exact absurd rfl hne
  | cons pt rest =>
    obtain ⟨k, h1, h2, h3, h4⟩ := findGapGo_spec rest pt
    exact ⟨(findGapGo pt rest).1, (findGapGo pt rest).2, k, rfl, h1, h2, h3, h4⟩

theorem fileOffsetSizeFindGap_spec_witness :
    fileOffsetSizeFindGap
      [⟨0, 4⟩, ⟨4, 2⟩, ⟨6, 3⟩, ⟨12, 5⟩] = some (⟨6, 3⟩, some ⟨12, 5⟩) := by
  obtain ⟨bg, ag, k, h1, -⟩ := fileOffsetSizeFindGap_spec
    [⟨0, 4⟩, ⟨4, 2⟩, ⟨6, 3⟩, ⟨12, 5⟩] (by decide)
    (by simp [List.chain'_cons])
  rw [h1]
  cases h1
  rfl

/-- C3: with valid bounds, `bitSetRange(startIx, count)` with `count > 0`
sets every bit of `[startIx, startIx+count)`, leaves every other bit's
value unchanged, and with `count <= 0` is a complete no-op. -/
theorem bitSetRange_spec (b : Nat → Nat) (s : Nat) (c : Int) (n : Nat)
    (hn : s + c.toNat ≤ n) :
    (0 < c → ∀ i, s ≤ i → i < s + c.toNat →
      bitReadOne (bitSetRange b s c) i = true) ∧
    (0 < c → ∀ i, i < s ∨ s + c.toNat ≤ i →
      bitReadOne (bitSetRange b s c) i = bitReadOne b i) ∧
    (c ≤ 0 → bitSetRange b s c = b) := by
  refine ⟨fun hc i h1 h2 => ?_,
    fun hc i hi => bitReadOne_bitSetRange_frame b s c hc i hi,
    fun hc => bitSetRange_nonpos b s c hc⟩
  exact (bitReadOne_bitSetRange b s c hc i).mpr (Or.inl ⟨h1, h2⟩)

theorem bitSetRange_spec_witness :
    bitReadOne (bitSetRange (fun _ => 0) 3 7) 5 = true ∧
    bitReadOne (bitSetRange (fun _ => 0) 3 7) 10 = bitReadOne (fun _ => 0) 10 ∧
    bitSetRange (fun _ => 0) 3 (-2) = (fun _ => 0) := by
  refine ⟨(bitSetRange_spec (fun _ => 0) 3 7 16 (by decide)).1 (by decide) 5
      (by decide) (by decide),
    (bitSetRange_spec (fun _ => 0) 3 7 16 (by decide)).2.1 (by decide) 10
      (by decide),
    (bitSetRange_spec (fun _ => 0) 3 (-2) 16 (by decide)).2.2 (by decide)⟩

/-- C4: with valid bounds and `count > 0`, `bitCountRange(startIx, count)`
equals the number of indices in `[startIx, startIx+count)` whose bit reads
true. -/
theorem bitCountRange_spec (b : Nat → Nat) (s : Nat) (c : Int) (n : Nat)
    (hc : 0 < c) (hn : s + c.toNat ≤ n) :
    bitCountRange b s c =
      ((Finset.Ico s (s + c.toNat)).filter (fun i => bitReadOne b i = true)).card :=
  bitCountRange_eq_card b s c hc

theorem bitCountRange_spec_witness :
    bitCountRange (fun i => if i = 0 then 12 else 0) 0 8 =
      ((Finset.Ico 0 8).filter
        (fun i => bitReadOne (fun i => if i = 0 then 12 else 0) i = true)).card :=
  bitCountRange_spec (fun i => if i = 0 then 12 else 0) 0 8 8 (by decide) (by decide)

/-- Modelled from the spec: the §8 reference model — `setRange` on a plain
boolean array. -/
def refBitsSetRange (r : Nat → Bool) (s c : Nat) : Nat → Bool :=
  fun i => if s ≤ i ∧ i < s + c then true else r i

/-- C5: `setRange(s, c)` followed by `countSetInRange(s, c)` yields exactly
`c` whatever the prior contents, and after the `setRange`, `readBit` agrees
at every index with a reference boolean array updated the same way. -/
theorem setRange_countRange_agree (b : Nat → Nat) (r : Nat → Bool) (s : Nat)
    (c : Int) (n : Nat) (hc : 0 < c) (hn : s + c.toNat ≤ n)
    (href : ∀ i, bitReadOne b i = r i) :
    bitCountRange (bitSetRange b s c) s c = c.toNat ∧
    ∀ i, bitReadOne (bitSetRange b s c) i = refBitsSetRange r s c.toNat i := by
  constructor
  · rw [bitCountRange_eq_card _ s c hc, Finset.filter_true_of_mem, Nat.card_Ico]
    · omega
    · intro i hi
      have hmem := Finset.mem_Ico.mp hi
      exact (bitReadOne_bitSetRange b s c hc i).mpr (Or.inl ⟨hmem.1, hmem.2⟩)
  · intro i
    rw [refBitsSetRange]
    by_cases hin : s ≤ i ∧ i < s + c.toNat
    · rw [if_pos hin]
      exact (bitReadOne_bitSetRange b s c hc i).mpr (Or.inl hin)
    · rw [if_neg hin, bitReadOne_bitSetRange_frame b s c hc i (by omega), href i]

theorem setRange_countRange_agree_witness :
    bitCountRange (bitSetRange (fun i => if i = 1 then 255 else 0) 3 9) 3 9 = 9 ∧
    bitReadOne (bitSetRange (fun i => if i = 1 then 255 else 0) 3 9) 13 =
      refBitsSetRange
        (fun i => bitReadOne (fun i => if i = 1 then 255 else 0) i) 3 9 13 := by
  have h := setRange_countRange_agree (fun i => if i = 1 then 255 else 0)
    (fun i => bitReadOne (fun i => if i = 1 then 255 else 0) i) 3 9 16
    (by decide) (by decide) (fun i => rfl)
  exact ⟨h.1, h.2 13⟩

lemma findSpec_congr (b b' : Nat → Nat) (val : Bool) (s n r : Nat)
    (hbits : ∀ j, j < n → bitReadOne b j = bitReadOne b' j)
    (h : findSpec b val s n r) : findSpec b' val s n r := by
  rcases h with ⟨hr, hnone⟩ | ⟨h1, h2, h3, h4⟩
  · exact Or.inl ⟨hr, fun j hj hjn => by
      rw [← hbits j hjn]; exact hnone j hj hjn⟩
  · exact Or.inr ⟨h1, h2, by rw [← hbits r h2]; exact h3,
      fun j hj hjr => by rw [← hbits j (by omega)]; exact h4 j hj hjr⟩

lemma bitReadOne_congr (b b' : Nat → Nat) (n j : Nat)
    (hagree : ∀ i, i < bitByteCount n → b i = b' i) (hj : j < n) :
    bitReadOne b j = bitReadOne b' j := by
  rw [bitReadOne, bitReadOne, hagree (j / 8) (by rw [bitByteCount]; omega)]

/-- C6: under valid bounds every bit-vector operation is total and touches
only bytes inside the `ceil(bitCount/8)`-byte buffer — their results are
unchanged when the buffer contents are replicated and everything outside
the buffer is changed arbitrarily, and `bitSetRange` writes no byte at or
beyond the buffer end; `bitFind` additionally tolerates `startIx >=
bitCount`, returning `bitCount` for every buffer whatsoever. -/
theorem bitVector_safety (n s : Nat) (c : Int) (v : Bool) (b b' : Nat → Nat)
    (hagree : ∀ i, i < bitByteCount n → b i = b' i) :
    (∀ i, bitAlloc n i = 0) ∧
    (bitFind b s v n = bitFind b' s v n) ∧
    (n ≤ s → bitFind b s v n = n) ∧
    (s + c.toNat ≤ n → bitCountRange b s c = bitCountRange b' s c) ∧
    (s + c.toNat ≤ n → ∀ i, i < bitByteCount n →
      bitSetRange b s c i = bitSetRange b' s c i) ∧
    (s + c.toNat ≤ n → 0 < c → ∀ i, bitByteCount n ≤ i →
      bitSetRange b s c i = b i) ∧
    (s < n → bitReadOne b s = bitReadOne b' s) := by
  have hbits : ∀ j, j < n → bitReadOne b j = bitReadOne b' j :=
    fun j hj => bitReadOne_congr b b' n j hagree hj
  refine ⟨fun i => rfl, ?_, ?_, ?_, ?_, ?_, fun hs => hbits s hs⟩
  · exact findSpec_unique b' v s n _ _
      (findSpec_congr b b' v s n _ hbits (bitFind_findSpec b s v n))
      (bitFind_findSpec b' s v n)
  · intro hns
    rcases bitFind_findSpec b s v n with ⟨hr, _⟩ | ⟨h1, h2, _, _⟩
    · exact hr
    · omega
  · intro hn
    by_cases hc : c ≤ 0
    · rw [bitCountRange, bitCountRange, bitCountRangeWith, bitCountRangeWith,
        if_pos hc, if_pos hc]
    · rw [bitCountRange_eq_card b s c (by omega), bitCountRange_eq_card b' s c (by omega)]
      congr 1
      refine Finset.filter_congr ?_
      intro i hi
      have hiI := Finset.mem_Ico.mp hi
      rw [hbits i (by omega)]
  · intro hn i hi
    rw [bitSetRange, bitSetRange]
    by_cases hc : c ≤ 0
    · rw [if_pos hc, if_pos hc]
      exact hagree i hi
    · rw [if_neg hc, if_neg hc]
      by_cases h1 : s / 8 = (s + c.toNat - 1) / 8
      · rw [if_pos h1, if_pos h1]
        by_cases h2 : i = s / 8
        · rw [if_pos h2, if_pos h2, hagree i hi]
        · rw [if_neg h2, if_neg h2]
          exact hagree i hi
      · rw [if_neg h1, if_neg h1]
        by_cases h2 : i = s / 8
        · rw [if_pos h2, if_pos h2, hagree i hi]
        · rw [if_neg h2, if_neg h2]
          by_cases h3 : s / 8 < i ∧ i < (s + c.toNat - 1) / 8
          · rw [if_pos h3, if_pos h3]
          · rw [if_neg h3, if_neg h3]
            by_cases h4 : i = (s + c.toNat - 1) / 8
            · rw [if_pos h4, if_pos h4, hagree i hi]
            · rw [if_neg h4, if_neg h4]
              exact hagree i hi
  · intro hn hc i hi
    rw [bitByteCount] at hi
    have hcn : 1 ≤ c.toNat := by omega
    rw [bitSetRange, if_neg (by omega)]
    by_cases h1 : s / 8 = (s + c.toNat - 1) / 8
    · rw [if_pos h1]
      rw [if_neg (by omega)]
    · rw [if_neg h1]
      rw [if_neg (by omega), if_neg (by omega), if_neg (by omega)]

theorem bitVector_safety_witness :
    bitFind (fun _ => 0) 5 true 16 = bitFind (fun i => if i < 2 then 0 else 7) 5 true 16 ∧
    bitFind (fun i => if i < 2 then 0 else 7) 20 true 16 = 16 ∧
    bitCountRange (fun _ => 0) 5 4 = bitCountRange (fun i => if i < 2 then 0 else 7) 5 4 ∧
    bitSetRange (fun _ => 0) 5 4 2 = (fun _ => (0 : Nat)) 2 := by
  refine ⟨(bitVector_safety 16 5 4 true (fun _ => 0) (fun i => if i < 2 then 0 else 7)
      (by decide)).2.1, ?_, ?_, ?_⟩
  · exact (bitVector_safety 16 20 4 true (fun i => if i < 2 then 0 else 7) (fun _ => 0)
      (by decide)).2.2.1 (by decide)
  · exact (bitVector_safety 16 5 4 true (fun _ => 0) (fun i => if i < 2 then 0 else 7)
      (by decide)).2.2.2.1 (by decide)
  · exact (bitVector_safety 16 5 4 true (fun _ => 0) (fun i => if i < 2 then 0 else 7)
      (by decide)).2.2.2.2.2.1 (by decide) (by decide) 2 (by decide)

/-- C7: reading any sequence of (possibly overlapping, block-unaligned)
in-bounds ranges of a remote source of size `S` through the Cache
Controller returns, for every single read, exactly the source's bytes for
the requested range, regardless of read order. -/
theorem udcRead_roundTrip (src : Nat → Nat) (S B : Nat) (reqs : List (Nat × Nat))
    (hB : 0 < B) (hreq : ∀ r ∈ reqs, r.1 + r.2 ≤ S) :
    udcRunReqs src S B udcInitialState reqs =
      reqs.map (fun r => (List.range r.2).map (fun i => src (r.1 + i))) :=
  udcRunReqs_correct src S B hB reqs udcInitialState
    (udcInitialState_good src S B) hreq

theorem udcRead_roundTrip_witness :
    udcRunReqs (fun p => p % 7) 10 3 udcInitialState [(2, 5), (0, 10), (7, 3)] =
      [(2, 5), (0, 10), (7, 3)].map
        (fun r => (List.range r.2).map (fun i => (r.1 + i) % 7)) :=
  udcRead_roundTrip (fun p => p % 7) 10 3 [(2, 5), (0, 10), (7, 3)]
    (by decide) (by decide)

/-- C8: `fileOffsetSizeFindGap` has no defined result on the empty list —
the C code dereferences the (NULL) head unconditionally — and is defined on
every non-empty list, so the operation is total exactly under the unstated
non-emptiness precondition. -/
theorem fileOffsetSizeFindGap_empty_undefined :
    fileOffsetSizeFindGap [] = none ∧
    ∀ l : List FileOffsetSize, l ≠ [] →
      (fileOffsetSizeFindGap l).isSome = true := by
  refine ⟨rfl, ?_⟩
  intro l hl
  cases l with
  | nil => exact absurd rfl hl
  | cons pt rest => rfl

theorem fileOffsetSizeFindGap_empty_undefined_witness :
    (fileOffsetSizeFindGap [(⟨0, 4⟩ : FileOffsetSize)]).isSome = true :=
  fileOffsetSizeFindGap_empty_undefined.2 [⟨0, 4⟩] (by decide)

/-- C9: `bitCountRange` with `count <= 0` returns 0 before touching the
byte buffer or the popcount table (the state-passing version returns the
table state unchanged), mirroring `bitSetRange`'s no-op guard. -/
theorem bitCountRange_nonpos (b : Nat → Nat) (s : Nat) (c : Int) (hc : c ≤ 0) :
    bitCountRange b s c = 0 ∧ bitSetRange b s c = b ∧
    ∀ st : BitsTableState, bitCountRangeSt st b s c = (0, st) := by
  refine ⟨?_, bitSetRange_nonpos b s c hc, ?_⟩
  · rw [bitCountRange, bitCountRangeWith, if_pos hc]
  · intro st
    rw [bitCountRangeSt, if_pos hc]

theorem bitCountRange_nonpos_witness :
    bitCountRange (fun _ => 255) 3 (-4) = 0 :=
  (bitCountRange_nonpos (fun _ => 255) 3 (-4) (by decide)).1

lemma tableReachable_init (s : BitsTableState) (h : tableReachable s) :
    tableReachable (bitsInByteInitSt s) := by
  rcases h with h | h
  · subst h
    exact Or.inr rfl
  · subst h
    rw [bitsInByteInitSt_idem]
    exact Or.inr rfl

/-- C10: `bitsInByteInit` is idempotent; from program start it fills the
256-entry table with the population count of each byte value; and in any
interleaving with `bitCountRange` (which initialises it lazily) the count
returned equals the pure `bitCountRange`, whether or not the table was
already initialised, with the state staying in the reachable set. -/
theorem bitsInByteInit_correct :
    (∀ s, bitsInByteInitSt (bitsInByteInitSt s) = bitsInByteInitSt s) ∧
    (∀ i, i < 256 → (bitsInByteInitSt initialTableState).table i = bitsInByte i) ∧
    (∀ s b startIx c, tableReachable s → (∀ i, b i < 256) →
      (bitCountRangeSt s b startIx c).1 = bitCountRange b startIx c ∧
      tableReachable (bitCountRangeSt s b startIx c).2 ∧
      tableReachable (bitsInByteInitSt s)) := by
  refine ⟨bitsInByteInitSt_idem, ?_, ?_⟩
  · exact tableReachable_table (bitsInByteInitSt initialTableState) (Or.inr rfl)
      (bitsInByteInitSt_initted initialTableState)
  · intro s b startIx c hreach hbytes
    refine ⟨?_, ?_, tableReachable_init s hreach⟩
    · rw [bitCountRangeSt]
      by_cases hc : c ≤ 0
      · rw [if_pos hc, bitCountRange, bitCountRangeWith, if_pos hc]
      · rw [if_neg hc]
        simp only
        have h1 : tableReachable (if s.initted then s else bitsInByteInitSt s) := by
          by_cases hs : s.initted
          · rw [if_pos hs]; exact hreach
          · rw [if_neg hs]; exact tableReachable_init s hreach
        have h2 : (if s.initted then s else bitsInByteInitSt s).initted = true := by
          by_cases hs : s.initted
          · rw [if_pos hs]; exact hs
          · rw [if_neg hs]; exact bitsInByteInitSt_initted s
        exact bitCountRangeWith_table _ b startIx c
          (tableReachable_table _ h1 h2) hbytes
    · rw [bitCountRangeSt]
      by_cases hc : c ≤ 0
      · rw [if_pos hc]
        exact hreach
      · rw [if_neg hc]
        simp only
        by_cases hs : s.initted
        · rw [if_pos hs]
          exact hreach
        · rw [if_neg hs]
          exact tableReachable_init s hreach

theorem bitsInByteInit_correct_witness :
    (bitCountRangeSt initialTableState (fun i => if i = 0 then 12 else 0) 0 8).1 =
      bitCountRange (fun i => if i = 0 then 12 else 0) 0 8 :=
  (bitsInByteInit_correct.2.2 initialTableState (fun i => if i = 0 then 12 else 0)
    0 8 (Or.inl rfl) (fun i => by
      show (if i = 0 then 12 else 0) < 256
      by_cases h : i = 0
      · rw [if_pos h]; omega
      · rw [if_neg h]; omega)).1

end Ucsc
